import Mathlib

/-!
# Verification of the minimint consensus core

Shallow embedding of `src/minimint/src/consensus/mod.rs` and
`src/minimint-api/src/encoding/btc.rs`, with the collaborating pieces that are
not part of the provided sources (the database batch layer, the wallet and
mint subsystems, the `mint_api` transaction type, and the address string form
of the `bitcoin` crate) modelled from the specification where needed.

Conventions of the embedding:
* Identifiers such as transaction ids, peg-in proofs, tokens, partial
  signature responses and blind signatures are opaque to the consensus core
  and are modelled as `Nat`.
* Fallible Rust functions returning `Result` become `Except`.
* The mint and wallet collaborators (`FediMint`, `Wallet` traits; their
  implementations are not under `src/`) are abstracted as function fields of
  an environment record `Env`; their possible staged writes are opaque
  `BatchItem`s.
* Database state relevant to the claims is an explicit record `Db` of typed
  association lists mirroring the persistent namespaces of spec §3.
-/

namespace Minimint

/-- Peg-out output data: `recipient` Bitcoin address (opaque) and `amount`
in milli-satoshi (`mint_api::Amount`, modelled as `Nat`). -/
structure PegOutData where
  recipient : Nat
  amount : Nat
deriving DecidableEq, Repr

/-- Embedding of `mint_api::transaction::Input`: spent coins (list of (amount, token) pairs)
or a peg-in proof (opaque). -/
inductive Input
  | Coins (coins : List (Nat × Nat))
  | PegIn (proof : Nat)
deriving DecidableEq, Repr

/-- Embedding of `mint_api::transaction::Output`: newly blinded tokens or a peg-out. -/
inductive Output
  | Coins (tokens : List (Nat × Nat))
  | PegOut (pegOut : PegOutData)
deriving DecidableEq, Repr

/-- Embedding of `mint_api::transaction::Transaction`: inputs, outputs and an aggregate
signature (opaque).  `tx_hash` is computed by the (external) `mint_api`
crate and is therefore an abstract function field of `Env`. -/
structure Transaction where
  inputs : List Input
  outputs : List Output
  signature : Nat
deriving DecidableEq, Repr

/-- Embedding of `ConsensusItem` from `consensus/mod.rs` lines 28-34. -/
inductive ConsensusItem
  | Transaction (tx : Transaction)
  | PartiallySignedRequest (txh : Nat) (idx : Nat) (psig : Nat)
  | Wallet (wci : Nat)
deriving DecidableEq, Repr

/-- Embedding of `mint_api::outcome::OutputOutcome`: a finalized issuance (combined blind
signature) or a queued peg-out.  The stored DB value is
`Option OutputOutcome`, where `none` means accepted-awaiting-signatures. -/
inductive OutputOutcome
  | PegOut
  | Coins (blindSignature : Nat)
deriving DecidableEq, Repr

/-- Embedding of `mint_api::outcome::TransactionStatus`. -/
inductive TransactionStatus
  | AwaitingConsensus
  | Accepted
  | Error (message : String)
deriving DecidableEq, Repr

/-- One `PartialSignature` row: key `(request_id = (txh, idx), peer)`, value
the share of the peer (`PartialSigResponse`, opaque). -/
structure PsigRow where
  txh : Nat
  idx : Nat
  peer : Nat
  sig : Nat
deriving DecidableEq, Repr

/-- A staged database write.  Modelled from the spec (§4.F, §6): the
`database::batch` module is not under `src/`; it offers insert, insert-new
(fails the atomic commit if the key is already present), delete and
maybe-delete items.  `mintWrite`/`walletWrite` stand for opaque writes of the
mint and wallet subsystems to their own namespaces; `queuePegout` is the
pending-withdrawal enqueue of the wallet (spec §4.E), made explicit because claims
refer to the amount it carries. -/
inductive BatchItem
  | insertCI (ci : ConsensusItem)
  | insertNewCI (ci : ConsensusItem)
  | deleteCI (ci : ConsensusItem)
  | maybeDeleteCI (ci : ConsensusItem)
  | insertStatus (txh : Nat) (st : TransactionStatus)
  | insertOutcome (txh : Nat) (idx : Nat) (oc : Option OutputOutcome)
  | insertNewPsig (txh : Nat) (idx : Nat) (peer : Nat) (sig : Nat)
  | deletePsig (txh : Nat) (idx : Nat) (peer : Nat)
  | queuePegout (txh : Nat) (recipient : Nat) (amountSat : Nat)
  | mintWrite (w : Nat)
  | walletWrite (w : Nat)
deriving DecidableEq, Repr

/-- Committed database state, restricted to the persistent namespaces of
spec §3 that the claims mention.  `mintState` stands for the mint-owned
namespaces (spent-coin set etc.), which `submit_transaction` and epoch
processing of the consensus engine never write directly. -/
structure Db where
  ciQueue : List ConsensusItem
  txStatus : List (Nat × TransactionStatus)
  outputOutcome : List ((Nat × Nat) × Option OutputOutcome)
  psigRows : List PsigRow
  pegoutQueue : List (Nat × Nat × Nat)
  mintState : Nat
deriving DecidableEq, Repr

/-- The collaborators of `FediMintConsensus` (`cfg`, `mint`, `wallet`) and the
functions of external crates (`mint_api` validation, `tx_hash`).  These are
declared but not defined under `src/`, so they are abstract function fields;
error payloads are opaque `Nat` codes rendered to strings by the `..Msg`
fields (the `Display` impls of the inner error types are external). -/
structure Env where
  peersLen : Nat
  maxFaulty : Nat
  txHash : Transaction → Nat
  validateFunding : Transaction → Except Nat Unit
  validateSignature : Transaction → Except Nat Unit
  mintValidate : Nat → List (Nat × Nat) → Except Nat Unit
  validateTiers : List (Nat × Nat) → Except Nat Unit
  validatePegIn : Nat → Except Nat Unit
  validatePegOut : PegOutData → Except Nat Unit
  mintIssue : List (Nat × Nat) → Except Nat Nat
  mintSpend : Nat → List (Nat × Nat) → Except Nat (List BatchItem)
  claimPegin : Nat → Except Nat (List BatchItem)
  pegoutCheck : Nat → Nat → Nat → Except Nat Unit
  mintCombine : List (Nat × Nat) → Except Nat Nat × List Nat
  txErrMsg : Nat → String
  mintErrMsg : Nat → String
  walletErrMsg : Nat → String

/-- Embedding of `TransactionSubmissionError` from `consensus/mod.rs` lines 442-454. -/
inductive TransactionSubmissionError
  | TransactionError (e : Nat)
  | InputCoinError (e : Nat)
  | InputPegIn (e : Nat)
  | OutputCoinError (e : Nat)
  | OutputPegOut (e : Nat)
deriving DecidableEq, Repr

/-- Rendering (`Display`) of `TransactionSubmissionError` via the `thiserror` format
strings of lines 444-453 (note the source uses "Output coin error" for both
`OutputCoinError` and `OutputPegOut`). -/
def errToString (E : Env) : TransactionSubmissionError → String
  | TransactionSubmissionError.TransactionError e =>
      "High level transaction error: " ++ E.txErrMsg e
  | TransactionSubmissionError.InputCoinError e =>
      "Input coin error: " ++ E.mintErrMsg e
  | TransactionSubmissionError.InputPegIn e =>
      "Input peg-in error: " ++ E.walletErrMsg e
  | TransactionSubmissionError.OutputCoinError e =>
      "Output coin error: " ++ E.mintErrMsg e
  | TransactionSubmissionError.OutputPegOut e =>
      "Output coin error: " ++ E.walletErrMsg e

/-- First-match association-list lookup (the ordered KV store keyed lookup). -/
def alookup {κ α : Type} [DecidableEq κ] : List (κ × α) → κ → Option α
  | [], _ => none
  | e :: rest, q => if e.1 = q then some e.2 else alookup rest q

/-- Embedding of `to_sign_request` (lines 429-436): `BlindToken` is a newtype over the
blinded message, so the map `(amt, token) ↦ (amt, token.0)` is the identity
on the `Nat` model. -/
def toSignRequest (coins : List (Nat × Nat)) : List (Nat × Nat) :=
  coins.map (fun p => (p.1, p.2))

/-- Embedding of `to_btc_amount_round_down` (lines 438-440): milli-satoshi to satoshi by
integer division. -/
def toBtcAmountRoundDown (amt : Nat) : Nat :=
  amt / 1000

/-- Input validation loop of `submit_transaction` (lines 72-85):
`mint.validate` for coins (reads only mint-owned DB state, hence the
`mintState` argument), `wallet.validate_peg_in` for peg-ins. -/
def validateInputs (E : Env) (ms : Nat) : List Input → Except TransactionSubmissionError Unit
  | [] => Except.ok ()
  | Input.Coins c :: rest =>
    match E.mintValidate ms c with
    | Except.error e => Except.error (TransactionSubmissionError.InputCoinError e)
    | Except.ok _ => validateInputs E ms rest
  | Input.PegIn p :: rest =>
    match E.validatePegIn p with
    | Except.error e => Except.error (TransactionSubmissionError.InputPegIn e)
    | Except.ok _ => validateInputs E ms rest

/-- Output validation loop of `submit_transaction` (lines 87-100). -/
def validateOutputs (E : Env) : List Output → Except TransactionSubmissionError Unit
  | [] => Except.ok ()
  | Output.Coins c :: rest =>
    match E.validateTiers c with
    | Except.error e => Except.error (TransactionSubmissionError.OutputCoinError e)
    | Except.ok _ => validateOutputs E rest
  | Output.PegOut po :: rest =>
    match E.validatePegOut po with
    | Except.error e => Except.error (TransactionSubmissionError.OutputPegOut e)
    | Except.ok _ => validateOutputs E rest

/-- All validation performed by `submit_transaction` before it touches the
database (lines 69-100). -/
def submitChecks (E : Env) (ms : Nat) (tx : Transaction) : Except TransactionSubmissionError Unit :=
  match E.validateFunding tx with
  | Except.error e => Except.error (TransactionSubmissionError.TransactionError e)
  | Except.ok _ =>
    match E.validateSignature tx with
    | Except.error e => Except.error (TransactionSubmissionError.TransactionError e)
    | Except.ok _ =>
      match validateInputs E ms tx.inputs with
      | Except.error e => Except.error e
      | Except.ok _ => validateOutputs E tx.outputs

/-- Embedding of `submit_transaction` (lines 62-120).  `insert_entry` on the pending queue
returns the previous value; if the item was already present only a warning is
logged, otherwise `TransactionStatus = AwaitingConsensus` is also written
(semantics of `insert_entry` modelled from the spec §4.G.1, the `database`
module being outside `src/`).  Returns the result together with the database
state after the call. -/
def submit_transaction (E : Env) (db : Db) (tx : Transaction) :
    Except TransactionSubmissionError Unit × Db :=
  match submitChecks E db.mintState tx with
  | Except.error e => (Except.error e, db)
  | Except.ok _ =>
    if ConsensusItem.Transaction tx ∈ db.ciQueue then
      (Except.ok (), db)
    else
      (Except.ok (), { db with
        ciQueue := ConsensusItem.Transaction tx :: db.ciQueue,
        txStatus := (E.txHash tx, TransactionStatus.AwaitingConsensus) :: db.txStatus })

/-- Input loop of `process_transaction` (lines 253-266): `mint.spend` or
`wallet.claim_pegin` stage writes into the sub-batch; any failure aborts the
whole transaction.  The staged items of the collaborators are opaque. -/
def processInputs (E : Env) (ms : Nat) : List Input → Except TransactionSubmissionError (List BatchItem)
  | [] => Except.ok []
  | Input.Coins c :: rest =>
    match E.mintSpend ms c with
    | Except.error e => Except.error (TransactionSubmissionError.InputCoinError e)
    | Except.ok its =>
      match processInputs E ms rest with
      | Except.error e2 => Except.error e2
      | Except.ok more => Except.ok (its ++ more)
  | Input.PegIn p :: rest =>
    match E.claimPegin p with
    | Except.error e => Except.error (TransactionSubmissionError.InputPegIn e)
    | Except.ok its =>
      match processInputs E ms rest with
      | Except.error e2 => Except.error e2
      | Except.ok more => Except.ok (its ++ more)

/-- Embedding of `wallet.queue_pegout` (call site lines 281-290).  Modelled from the spec:
the `fediwallet` implementation is not under `src/`; §4.E says it enqueues a
pending withdrawal `(tx_hash, recipient, amount)` into the sub-batch, and the
call site maps its error through `OutputPegOut`.  A possible wallet-side
rejection is abstracted as `pegoutCheck`. -/
def walletQueuePegout (E : Env) (txh recipient amtSat : Nat) :
    Except TransactionSubmissionError (List BatchItem) :=
  match E.pegoutCheck txh recipient amtSat with
  | Except.error e => Except.error (TransactionSubmissionError.OutputPegOut e)
  | Except.ok _ => Except.ok [BatchItem.queuePegout txh recipient amtSat]

/-- Output loop of `process_transaction` (lines 268-292): `mint.issue` for
coins, staging `ConsensusItem::PartiallySignedRequest(tx_hash, idx, psig)`
with insert-new; `wallet.queue_pegout` for peg-outs with the milli-satoshi
amount rounded down to satoshi. -/
def processOutputs (E : Env) (txh : Nat) : Nat → List Output → Except TransactionSubmissionError (List BatchItem)
  | _, [] => Except.ok []
  | idx, Output.Coins c :: rest =>
    match E.mintIssue (toSignRequest c) with
    | Except.error e => Except.error (TransactionSubmissionError.OutputCoinError e)
    | Except.ok psig =>
      match processOutputs E txh (idx + 1) rest with
      | Except.error e2 => Except.error e2
      | Except.ok more =>
        Except.ok (BatchItem.insertNewCI (ConsensusItem.PartiallySignedRequest txh idx psig) :: more)
  | idx, Output.PegOut po :: rest =>
    match walletQueuePegout E txh po.recipient (toBtcAmountRoundDown po.amount) with
    | Except.error e => Except.error e
    | Except.ok its =>
      match processOutputs E txh (idx + 1) rest with
      | Except.error e2 => Except.error e2
      | Except.ok more => Except.ok (its ++ more)

/-- Embedding of `process_transaction` (lines 242-296).  On success it returns the items
staged through its `BatchTx` (committed by `batch.commit()` on line 294); on
error nothing was committed, which the `Except` return models: the staged
sub-batch is discarded. -/
def process_transaction (E : Env) (db : Db) (tx : Transaction) :
    Except TransactionSubmissionError (List BatchItem) :=
  match E.validateFunding tx with
  | Except.error e => Except.error (TransactionSubmissionError.TransactionError e)
  | Except.ok _ =>
    match E.validateSignature tx with
    | Except.error e => Except.error (TransactionSubmissionError.TransactionError e)
    | Except.ok _ =>
      match processInputs E db.mintState tx.inputs with
      | Except.error e => Except.error e
      | Except.ok inItems =>
        match processOutputs E (E.txHash tx) 0 tx.outputs with
        | Except.error e => Except.error e
        | Except.ok outItems => Except.ok (inItems ++ outItems)

/-- The `TransactionOutputOutcome` value staged for each output of an
accepted transaction (lines 182-193). -/
def outcomeFor : Output → Option OutputOutcome
  | Output.PegOut _ => some OutputOutcome.PegOut
  | Output.Coins _ => none

/-- The per-transaction batch built by phase 4 of `process_consensus_outcome`
(lines 162-208): first the `maybe_delete` of the pending-queue item, then on
success the committed `process_transaction` items, `TransactionStatus =
Accepted` and the initial per-output outcomes; on failure only
`TransactionStatus = Error(reason)`. -/
def processTxBatch (E : Env) (db : Db) (tx : Transaction) : List BatchItem :=
  BatchItem.maybeDeleteCI (ConsensusItem.Transaction tx) ::
    match process_transaction E db tx with
    | Except.ok items =>
        items ++ [BatchItem.insertStatus (E.txHash tx) TransactionStatus.Accepted] ++
          tx.outputs.enum.map (fun p => BatchItem.insertOutcome (E.txHash tx) p.1 (outcomeFor p.2))
    | Except.error e =>
        [BatchItem.insertStatus (E.txHash tx) (TransactionStatus.Error (errToString E e))]

/-- Embedding of `process_partial_signature` (lines 299-344), phase 5 of epoch processing:
look up the stored outcome of the request id; stage the share with insert-new
only when the outcome row holds `None` (accepted, awaiting signatures);
otherwise drop the share and stage nothing. -/
def processPSigShare (db : Db) (peer : Nat) (reqId : Nat × Nat) (psig : Nat) : List BatchItem :=
  match alookup db.outputOutcome reqId with
  | some (some (OutputOutcome.Coins _)) => []
  | some none => [BatchItem.insertNewPsig reqId.1 reqId.2 peer psig]
  | none => []
  | some (some OutputOutcome.PegOut) => []

/-- Embedding of `tbs_threshold` (lines 424-426). -/
def tbsThreshold (E : Env) : Nat :=
  E.peersLen - E.maxFaulty - 1

/-- The share group of a request id: all persisted `PartialSignature` rows
under `request_id`, as `(peer, share)` pairs (the `into_group_map` of
lines 347-356). -/
def sharesFor (db : Db) (q : Nat × Nat) : List (Nat × Nat) :=
  (db.psigRows.filter (fun r => decide (r.txh = q.1 ∧ r.idx = q.2))).map (fun r => (r.peer, r.sig))

/-- The request ids with at least one persisted share, each taken once (the
key set of the `into_group_map` result). -/
def requestIds (db : Db) : List (Nat × Nat) :=
  (db.psigRows.map (fun r => (r.txh, r.idx))).dedup

/-- The deletion of one pending `PartiallySignedRequest` consensus item when
it falls under `ConsensusItemKeyPrefix(txh)`.  Modelled from the spec
(§4.G.3 phase 7): the `database` key module is not under `src/`; the prefix
scan of lines 384-393 matches exactly the
`ConsensusItem::PartiallySignedRequest` rows of the given `tx_hash`. -/
def ciPSRDelete (txh : Nat) : ConsensusItem → Option BatchItem
  | ConsensusItem.PartiallySignedRequest h i s =>
      if h = txh then some (BatchItem.deleteCI (ConsensusItem.PartiallySignedRequest h i s)) else none
  | _ => none

/-- All pending-queue deletions staged for a finalized `tx_hash`
(lines 384-393). -/
def ciDeletesFor (db : Db) (txh : Nat) : List BatchItem :=
  db.ciQueue.filterMap (ciPSRDelete txh)

/-- Handling of one share group inside `finalize_signatures` (lines 361-418):
if strictly more than `tbs_threshold` shares exist, try `mint.combine`; on
success stage the pending-queue deletions, the deletion of every share of the
group and the `Coins` outcome write; on combine failure, or with too few
shares, stage nothing. -/
def finalizeGroup (E : Env) (db : Db) (q : Nat × Nat) : List BatchItem :=
  if (sharesFor db q).length > tbsThreshold E then
    match (E.mintCombine (sharesFor db q)).1 with
    | Except.ok bsig =>
        ciDeletesFor db q.1 ++
          (sharesFor db q).map (fun pr => BatchItem.deletePsig q.1 q.2 pr.1) ++
          [BatchItem.insertOutcome q.1 q.2 (some (OutputOutcome.Coins bsig))]
    | Except.error _ => []
  else []

/-- Embedding of `finalize_signatures` (lines 346-422): the concatenation of the
staged items of every group (the parallel accumulators merged by
`append_from_accumulators`). -/
def finalize_signatures (E : Env) (db : Db) : List BatchItem :=
  (requestIds db).flatMap (finalizeGroup E db)

/-- Application of one staged item to the committed state.  Modelled from the
spec (§4.F, §6): the `database` module is not under `src/`; `insert-new`
fails the atomic commit when the key is already present (`none`); deletions
remove by key; `mintWrite`/`walletWrite` act on subsystem-owned namespaces
that are disjoint from the modelled ones. -/
def applyItem (db : Db) : BatchItem → Option Db
  | BatchItem.insertCI ci =>
      some (if ci ∈ db.ciQueue then db else { db with ciQueue := ci :: db.ciQueue })
  | BatchItem.insertNewCI ci =>
      if ci ∈ db.ciQueue then none else some { db with ciQueue := ci :: db.ciQueue }
  | BatchItem.deleteCI ci =>
      some { db with ciQueue := db.ciQueue.filter (fun x => decide (x ≠ ci)) }
  | BatchItem.maybeDeleteCI ci =>
      some { db with ciQueue := db.ciQueue.filter (fun x => decide (x ≠ ci)) }
  | BatchItem.insertStatus h st =>
      some { db with txStatus := (h, st) :: db.txStatus }
  | BatchItem.insertOutcome h i oc =>
      some { db with outputOutcome := ((h, i), oc) :: db.outputOutcome }
  | BatchItem.insertNewPsig h i p v =>
      if db.psigRows.any (fun r => decide (r.txh = h ∧ r.idx = i ∧ r.peer = p)) then none
      else some { db with psigRows := PsigRow.mk h i p v :: db.psigRows }
  | BatchItem.deletePsig h i p =>
      some { db with psigRows := db.psigRows.filter (fun r => decide (¬(r.txh = h ∧ r.idx = i ∧ r.peer = p))) }
  | BatchItem.queuePegout h r a =>
      some { db with pegoutQueue := (h, r, a) :: db.pegoutQueue }
  | BatchItem.mintWrite _ => some db
  | BatchItem.walletWrite _ => some db

/-- Atomic application of a whole batch (`apply_batch`): all items in order,
failing as a whole if any insert-new hits an existing key. -/
def applyBatch : Db → List BatchItem → Option Db
  | db, [] => some db
  | db, it :: rest =>
    match applyItem db it with
    | none => none
    | some db2 => applyBatch db2 rest

/-! ## Bitcoin address encoding (`src/minimint-api/src/encoding/btc.rs` lines 47-62)

The glue code under `src/` encodes a `bitcoin::Address` as the byte vector of
its string form and decodes by parsing the string back.  The string form
itself (`Display`/`FromStr` of the external `bitcoin` crate) and the byte
vector encoding (the `Vec<u8>` impl of `minimint-api`, not under `src/`) are
modelled from the spec (§6): lengths as Bitcoin-style varints, and the
canonical string form of the address with the network implicit in the string. -/

/-- Bitcoin network tag of an address. -/
inductive Network
  | mainnet
  | testnet
  | regtest
deriving DecidableEq, Repr

/-- A `bitcoin::Address`: the network and an opaque payload (bytes). -/
structure BtcAddress where
  network : Network
  payload : List Nat
deriving DecidableEq, Repr

/-- Leading byte of the canonical string form determined by the network. -/
def netByte : Network → Nat
  | Network.mainnet => 0
  | Network.testnet => 1
  | Network.regtest => 2

/-- Inverse of `netByte`. -/
def byteNet : Nat → Option Network
  | 0 => some Network.mainnet
  | 1 => some Network.testnet
  | 2 => some Network.regtest
  | _ => none

/-- Modelled from the spec: the UTF-8 bytes of the canonical string form of a
`bitcoin::Address` (its `Display` lives in the external `bitcoin` crate).
The spec states the network is implicit in the string, so the model renders
a network byte followed by the payload bytes. -/
def addrBytes (a : BtcAddress) : List Nat :=
  netByte a.network :: a.payload

/-- Modelled from the spec: `bitcoin::Address::from_str` composed with the
UTF-8 check of the decoder, as partial inverse of `addrBytes`. -/
def parseAddress : List Nat → Option BtcAddress
  | [] => none
  | b :: rest => (byteNet b).map (fun n => BtcAddress.mk n rest)

/-- The `k` bytes of `n` in little-endian order. -/
def toLE : Nat → Nat → List Nat
  | 0, _ => []
  | k + 1, n => n % 256 :: toLE k (n / 256)

/-- Little-endian byte list back to a number. -/
def fromLE : List Nat → Nat
  | [] => 0
  | b :: bs => b + 256 * fromLE bs

/-- Bitcoin CompactSize varint encoding of a length (spec §6: lengths as
varints; the `minimint-api` encoding module is not under `src/`). -/
def encodeVarint (n : Nat) : List Nat :=
  if n < 253 then [n]
  else if n < 65536 then 253 :: toLE 2 n
  else if n < 4294967296 then 254 :: toLE 4 n
  else 255 :: toLE 8 n

/-- Read `k` little-endian bytes from the front of a byte list. -/
def takeLE (k : Nat) (bs : List Nat) : Option (Nat × List Nat) :=
  if k ≤ bs.length then some (fromLE (bs.take k), bs.drop k) else none

/-- CompactSize varint decoding. -/
def decodeVarint : List Nat → Option (Nat × List Nat)
  | [] => none
  | b :: rest =>
    if b < 253 then some (b, rest)
    else if b = 253 then takeLE 2 rest
    else if b = 254 then takeLE 4 rest
    else takeLE 8 rest

/-- Embedding of `Encodable for bitcoin::Address` (btc.rs lines 48-52): the length-prefixed
UTF-8 bytes of the canonical string form. -/
def encodeAddress (a : BtcAddress) : List Nat :=
  encodeVarint (addrBytes a).length ++ addrBytes a

/-- Embedding of `Decodable for bitcoin::Address` (btc.rs lines 54-62): read the byte
vector (length-prefixed), interpret it as a string and parse the address;
returns the decoded address and the unconsumed remainder of the input. -/
def decodeAddress (bs : List Nat) : Option (BtcAddress × List Nat) :=
  match decodeVarint bs with
  | none => none
  | some (n, rest) =>
    if n ≤ rest.length then
      match parseAddress (rest.take n) with
      | none => none
      | some a => some (a, rest.drop n)
    else none

/-- Is the item an insertion into the `PartialSignature` namespace? -/
def isPsigInsert : BatchItem → Bool
  | BatchItem.insertNewPsig _ _ _ _ => true
  | _ => false

/-- Is the item an insertion into the pending consensus-item queue? -/
def isCIInsert : BatchItem → Bool
  | BatchItem.insertCI _ => true
  | BatchItem.insertNewCI _ => true
  | _ => false

/-! ## Concrete instances used to evaluate the definitions -/

/-- A federation of 4 peers tolerating 1 fault, with collaborators that
always succeed: `mint.issue` returns share 42, `mint.combine` returns the
combined signature 99 with an empty fault report. -/
def EOk : Env where
  peersLen := 4
  maxFaulty := 1
  txHash := fun _ => 0
  validateFunding := fun _ => Except.ok ()
  validateSignature := fun _ => Except.ok ()
  mintValidate := fun _ _ => Except.ok ()
  validateTiers := fun _ => Except.ok ()
  validatePegIn := fun _ => Except.ok ()
  validatePegOut := fun _ => Except.ok ()
  mintIssue := fun _ => Except.ok 42
  mintSpend := fun _ _ => Except.ok []
  claimPegin := fun _ => Except.ok []
  pegoutCheck := fun _ _ _ => Except.ok ()
  mintCombine := fun _ => (Except.ok 99, [])
  txErrMsg := fun _ => "bad"
  mintErrMsg := fun _ => "bad"
  walletErrMsg := fun _ => "bad"

/-- Same federation, but transactions fail funding validation with code 7. -/
def EFail : Env :=
  { EOk with validateFunding := fun _ => Except.error 7 }

/-- Same federation, but `mint.combine` fails with code 3. -/
def ECombErr : Env :=
  { EOk with mintCombine := fun _ => (Except.error 3, []) }

/-- The empty database. -/
def dbE : Db where
  ciQueue := []
  txStatus := []
  outputOutcome := []
  psigRows := []
  pegoutQueue := []
  mintState := 0

/-- An empty transaction (vacuously balanced). -/
def txE : Transaction where
  inputs := []
  outputs := []
  signature := 0

/-- A transaction with a single peg-out output of 2500 milli-satoshi. -/
def txP : Transaction where
  inputs := []
  outputs := [Output.PegOut (PegOutData.mk 8 2500)]
  signature := 0

/-- State after one successful submission of `txE` to `dbE` under `EOk`. -/
def db1W : Db where
  ciQueue := [ConsensusItem.Transaction txE]
  txStatus := [(0, TransactionStatus.AwaitingConsensus)]
  outputOutcome := []
  psigRows := []
  pegoutQueue := []
  mintState := 0

/-- A state with three partial-signature shares for request id (5, 0), the
pending `PartiallySignedRequest` consensus item of the same request, and the
accepted-awaiting outcome row. -/
def db0 : Db where
  ciQueue := [ConsensusItem.PartiallySignedRequest 5 0 10]
  txStatus := []
  outputOutcome := [((5, 0), none)]
  psigRows := [PsigRow.mk 5 0 0 10, PsigRow.mk 5 0 1 11, PsigRow.mk 5 0 2 12]
  pegoutQueue := []
  mintState := 0

/-- The state obtained by applying `finalize_signatures EOk db0` to `db0`. -/
def db0fin : Db where
  ciQueue := []
  txStatus := []
  outputOutcome := [((5, 0), some (OutputOutcome.Coins 99)), ((5, 0), none)]
  psigRows := []
  pegoutQueue := []
  mintState := 0

/-- A concrete mainnet address with a 2-byte payload. -/
def addr0 : BtcAddress where
  network := Network.mainnet
  payload := [7, 8]

/-! ## Theorems -/

/-- C2: a transaction rejected by `submit_transaction` leaves the database
untouched, and the returned error is exactly the classification produced by
the validation phase. -/
theorem claim2_submit_no_mutation_on_error (E : Env) (db db2 : Db) (tx : Transaction)
    (e : TransactionSubmissionError)
    (h : submit_transaction E db tx = (Except.error e, db2)) :
    db2 = db ∧ submitChecks E db.mintState tx = Except.error e := by
  unfold submit_transaction at h
  split at h
  next e2 heq =>
    simp only [Prod.mk.injEq, Except.error.injEq] at h
    obtain ⟨rfl, rfl⟩ := h
    exact ⟨rfl, heq⟩
  next u heq =>
    split at h <;> simp at h

/-- Witness for C2 at a concrete failing submission. -/
theorem claim2_witness :
    dbE = dbE ∧
    submitChecks EFail dbE.mintState txE =
      Except.error (TransactionSubmissionError.TransactionError 7) :=
  claim2_submit_no_mutation_on_error EFail dbE dbE txE
    (TransactionSubmissionError.TransactionError 7) rfl

/-- C3: submitting a valid, not yet pending transaction a second time
succeeds without changing the database; after the two calls the pending queue
holds exactly one entry for the transaction and the status row written by the
first call is `AwaitingConsensus`. -/
theorem claim3_submit_idempotent (E : Env) (db db1 : Db) (tx : Transaction)
    (hfresh : ConsensusItem.Transaction tx ∉ db.ciQueue)
    (h1 : submit_transaction E db tx = (Except.ok (), db1)) :
    submit_transaction E db1 tx = (Except.ok (), db1) ∧
    db1.ciQueue.count (ConsensusItem.Transaction tx) = 1 ∧
    alookup db1.txStatus (E.txHash tx) = some TransactionStatus.AwaitingConsensus := by
  unfold submit_transaction at h1
  split at h1
  next e heq => simp at h1
  next u heq =>
    rw [if_neg hfresh] at h1
    simp only [Prod.mk.injEq, true_and] at h1
    have hms : db1.mintState = db.mintState := by rw [← h1]
    have hmem : ConsensusItem.Transaction tx ∈ db1.ciQueue := by
      rw [← h1]
      exact List.mem_cons_self _ _
    refine ⟨?_, ?_, ?_⟩
    · unfold submit_transaction
      rw [hms, heq, if_pos hmem]
    · rw [← h1]
      simp only [List.count_cons_self]
      rw [List.count_eq_zero.2 hfresh]
    · rw [← h1]
      simp [alookup]

/-- Witness for C3 at a concrete fresh submission. -/
theorem claim3_witness :
    submit_transaction EOk db1W txE = (Except.ok (), db1W) ∧
    db1W.ciQueue.count (ConsensusItem.Transaction txE) = 1 ∧
    alookup db1W.txStatus (EOk.txHash txE) = some TransactionStatus.AwaitingConsensus :=
  claim3_submit_idempotent EOk dbE db1W txE (by simp [dbE]) rfl

/-- C5: phase-5 ingestion stages the share (with insert-new) exactly when the
stored outcome of the request id is the accepted-awaiting value `None`; when
the outcome row is absent, a peg-out, or an already finalized issuance, it
stages nothing. -/
theorem claim5_psig_ingestion (db : Db) (peer : Nat) (reqId : Nat × Nat) (psig : Nat) :
    processPSigShare db peer reqId psig =
      if alookup db.outputOutcome reqId = some none then
        [BatchItem.insertNewPsig reqId.1 reqId.2 peer psig]
      else [] := by
  unfold processPSigShare
  rcases h : alookup db.outputOutcome reqId with _ | oc
  · simp
  · rcases oc with _ | oc2
    · simp
    · rcases oc2 with _ | b <;> simp

/-- C6: when `process_transaction` fails during phase 4, the per-transaction
batch holds only the `maybe_delete` of the pending-queue item and the `Error`
status: no input spends, no peg-in claims, no output outcomes and no
`PartiallySignedRequest` items survive (the uncommitted sub-batch is
discarded). -/
theorem claim6_error_tx_batch (E : Env) (db : Db) (tx : Transaction)
    (e : TransactionSubmissionError)
    (h : process_transaction E db tx = Except.error e) :
    processTxBatch E db tx =
      [BatchItem.maybeDeleteCI (ConsensusItem.Transaction tx),
       BatchItem.insertStatus (E.txHash tx) (TransactionStatus.Error (errToString E e))] := by
  unfold processTxBatch
  rw [h]

/-- Witness for C6 at a concrete failing transaction. -/
theorem claim6_witness :
    processTxBatch EFail dbE txE =
      [BatchItem.maybeDeleteCI (ConsensusItem.Transaction txE),
       BatchItem.insertStatus (EFail.txHash txE)
         (TransactionStatus.Error
           (errToString EFail (TransactionSubmissionError.TransactionError 7)))] :=
  claim6_error_tx_batch EFail dbE txE (TransactionSubmissionError.TransactionError 7) rfl

/-- C8: the share-count bound above which `finalize_signatures` attempts a
combination is exactly `peers.len() - max_faulty - 1`: whenever a group
stages anything, its cardinality strictly exceeds that value. -/
theorem claim8_tbs_threshold (E : Env) (db : Db) (q : Nat × Nat)
    (h : finalizeGroup E db q ≠ []) :
    tbsThreshold E = E.peersLen - E.maxFaulty - 1 ∧
    (sharesFor db q).length > E.peersLen - E.maxFaulty - 1 := by
  refine ⟨rfl, ?_⟩
  by_cases hgt : (sharesFor db q).length > tbsThreshold E
  · exact hgt
  · exact absurd (by unfold finalizeGroup; rw [if_neg hgt]) h

/-- Witness for C8: with 4 peers, 1 tolerated fault and 3 shares the group
stages items, so 3 > 4 - 1 - 1. -/
theorem claim8_witness :
    tbsThreshold EOk = EOk.peersLen - EOk.maxFaulty - 1 ∧
    (sharesFor db0 (5, 0)).length > EOk.peersLen - EOk.maxFaulty - 1 :=
  claim8_tbs_threshold EOk db0 (5, 0) (by decide)

/-- A successful `walletQueuePegout` stages exactly the queued withdrawal. -/
theorem walletQueuePegout_ok (E : Env) (txh r a : Nat) (its : List BatchItem)
    (h : walletQueuePegout E txh r a = Except.ok its) :
    its = [BatchItem.queuePegout txh r a] := by
  unfold walletQueuePegout at h
  split at h
  · simp at h
  · injection h with h
    exact h.symm

/-- Every peg-out output of a successfully processed output list yields its
queued withdrawal with the rounded-down amount among the staged items. -/
theorem processOutputs_pegout_mem (E : Env) (txh : Nat) (po : PegOutData) :
    ∀ (outs : List Output) (idx : Nat) (its : List BatchItem),
      processOutputs E txh idx outs = Except.ok its →
      Output.PegOut po ∈ outs →
      BatchItem.queuePegout txh po.recipient (po.amount / 1000) ∈ its := by
  intro outs
  induction outs with
  | nil => intro idx its hok hmem; simp at hmem
  | cons o rest ih =>
    intro idx its hok hmem
    cases o with
    | Coins c =>
      have hmem2 : Output.PegOut po ∈ rest := by
        rcases List.mem_cons.1 hmem with h | h
        · exact absurd h (by simp)
        · exact h
      unfold processOutputs at hok
      split at hok
      · simp at hok
      · split at hok
        · simp at hok
        next more heq =>
          injection hok with hok
          subst hok
          exact List.mem_cons_of_mem _ (ih (idx + 1) more heq hmem2)
    | PegOut po2 =>
      unfold processOutputs at hok
      split at hok
      · simp at hok
      next its0 heq0 =>
        split at hok
        · simp at hok
        next more heq =>
          injection hok with hok
          subst hok
          rcases List.mem_cons.1 hmem with h | h
          · injection h with h
            subst h
            rw [walletQueuePegout_ok E txh po.recipient (toBtcAmountRoundDown po.amount) its0 heq0]
            exact List.mem_append_left _ (List.mem_singleton.2 rfl)
          · exact List.mem_append_right _ (ih (idx + 1) more heq h)

/-- Decomposition of a successful `process_transaction`: the staged items are
the input items followed by the output items. -/
theorem process_transaction_ok_parts (E : Env) (db : Db) (tx : Transaction)
    (items : List BatchItem)
    (h : process_transaction E db tx = Except.ok items) :
    ∃ a b, processInputs E db.mintState tx.inputs = Except.ok a ∧
      processOutputs E (E.txHash tx) 0 tx.outputs = Except.ok b ∧ items = a ++ b := by
  unfold process_transaction at h
  split at h
  · simp at h
  · split at h
    · simp at h
    · split at h
      · simp at h
      next a heq3 =>
        split at h
        · simp at h
        next b heq4 =>
          injection h with h5
          exact ⟨a, b, heq3, heq4, h5.symm⟩

/-- C10: for every accepted transaction with a peg-out output of `a`
milli-satoshi, the amount handed to `wallet.queue_pegout` is `a / 1000`
satoshi: integer division rounds down and the sub-satoshi remainder is
silently discarded. -/
theorem claim10_pegout_rounding (E : Env) (db : Db) (tx : Transaction)
    (items : List BatchItem) (po : PegOutData)
    (hok : process_transaction E db tx = Except.ok items)
    (hmem : Output.PegOut po ∈ tx.outputs) :
    toBtcAmountRoundDown po.amount = po.amount / 1000 ∧
    BatchItem.queuePegout (E.txHash tx) po.recipient (po.amount / 1000) ∈ items ∧
    1000 * (po.amount / 1000) ≤ po.amount ∧
    po.amount < 1000 * (po.amount / 1000) + 1000 := by
  obtain ⟨a, b, -, hb, rfl⟩ := process_transaction_ok_parts E db tx items hok
  refine ⟨rfl, ?_, ?_, ?_⟩
  · exact List.mem_append_right a
      (processOutputs_pegout_mem E (E.txHash tx) po tx.outputs 0 b hb hmem)
  · have h1 := Nat.div_add_mod po.amount 1000
    omega
  · have h1 := Nat.div_add_mod po.amount 1000
    have h2 := Nat.mod_lt po.amount (show 0 < 1000 by norm_num)
    omega

/-- Witness for C10: a 2500 milli-satoshi peg-out queues 2 satoshi. -/
theorem claim10_witness :
    toBtcAmountRoundDown 2500 = 2500 / 1000 ∧
    BatchItem.queuePegout (EOk.txHash txP) 8 (2500 / 1000) ∈ [BatchItem.queuePegout 0 8 2] ∧
    1000 * (2500 / 1000) ≤ 2500 ∧
    2500 < 1000 * (2500 / 1000) + 1000 :=
  claim10_pegout_rounding EOk dbE txP [BatchItem.queuePegout 0 8 2]
    (PegOutData.mk 8 2500) rfl (by simp [txP])

/-- Membership characterization of the pending-queue deletions of a
finalized `tx_hash`. -/
theorem mem_ciDeletesFor (db : Db) (t : Nat) (it : BatchItem) :
    it ∈ ciDeletesFor db t ↔
      ∃ i s, ConsensusItem.PartiallySignedRequest t i s ∈ db.ciQueue ∧
        it = BatchItem.deleteCI (ConsensusItem.PartiallySignedRequest t i s) := by
  simp only [ciDeletesFor, List.mem_filterMap]
  constructor
  · rintro ⟨ci, hci, hfn⟩
    cases ci with
    | Transaction tx => simp [ciPSRDelete] at hfn
    | Wallet w => simp [ciPSRDelete] at hfn
    | PartiallySignedRequest hh i s =>
      simp only [ciPSRDelete] at hfn
      split at hfn
      next hht =>
        injection hfn with hfn
        subst hht
        exact ⟨i, s, hci, hfn.symm⟩
      next hht => simp at hfn
  · rintro ⟨i, s, hci, rfl⟩
    exact ⟨ConsensusItem.PartiallySignedRequest t i s, hci, by simp [ciPSRDelete]⟩

/-- Membership characterization of a share group. -/
theorem mem_sharesFor (db : Db) (q : Nat × Nat) (x : Nat × Nat) :
    x ∈ sharesFor db q ↔
      ∃ r, r ∈ db.psigRows ∧ r.txh = q.1 ∧ r.idx = q.2 ∧ x = (r.peer, r.sig) := by
  simp only [sharesFor, List.mem_map, List.mem_filter, decide_eq_true_eq]
  constructor
  · rintro ⟨r, ⟨hr, hk1, hk2⟩, rfl⟩
    exact ⟨r, hr, hk1, hk2, rfl⟩
  · rintro ⟨r, hr, hk1, hk2, rfl⟩
    exact ⟨r, ⟨hr, hk1, hk2⟩, rfl⟩

/-- Any item staged by a share group comes from a group that passed the
threshold test and combined successfully, and is one of: a pending-queue
deletion, a share deletion of the same request id, or the outcome write. -/
theorem mem_finalizeGroup_cases (E : Env) (db : Db) (q : Nat × Nat) (it : BatchItem)
    (h : it ∈ finalizeGroup E db q) :
    ∃ bsig, (sharesFor db q).length > tbsThreshold E ∧
      (E.mintCombine (sharesFor db q)).1 = Except.ok bsig ∧
      (it ∈ ciDeletesFor db q.1 ∨
       (∃ pr, pr ∈ sharesFor db q ∧ it = BatchItem.deletePsig q.1 q.2 pr.1) ∨
       it = BatchItem.insertOutcome q.1 q.2 (some (OutputOutcome.Coins bsig))) := by
  unfold finalizeGroup at h
  by_cases hgt : (sharesFor db q).length > tbsThreshold E
  · rw [if_pos hgt] at h
    split at h
    next bsig hcomb =>
      refine ⟨bsig, hgt, hcomb, ?_⟩
      rcases List.mem_append.1 h with h2 | h2
      · rcases List.mem_append.1 h2 with h3 | h3
        · exact Or.inl h3
        · obtain ⟨pr, hpr, heq⟩ := List.mem_map.1 h3
          exact Or.inr (Or.inl ⟨pr, hpr, heq.symm⟩)
      · simp only [List.mem_singleton] at h2
        exact Or.inr (Or.inr h2)
    next msg hcomb => simp at h
  · rw [if_neg hgt] at h
    simp at h

/-- The exact staged items of a group that passed the threshold test and
combined successfully. -/
theorem finalizeGroup_ok_items (E : Env) (db : Db) (q : Nat × Nat) (bsig : Nat)
    (hgt : (sharesFor db q).length > tbsThreshold E)
    (hcomb : (E.mintCombine (sharesFor db q)).1 = Except.ok bsig) :
    finalizeGroup E db q =
      ciDeletesFor db q.1 ++
        (sharesFor db q).map (fun pr => BatchItem.deletePsig q.1 q.2 pr.1) ++
        [BatchItem.insertOutcome q.1 q.2 (some (OutputOutcome.Coins bsig))] := by
  unfold finalizeGroup
  rw [if_pos hgt, hcomb]

/-- C1: a `Coins{sig}` outcome is written by `finalize_signatures` only when
strictly more than `tbs_threshold` shares existed for the request id at the
time it ran, and a group with at most `tbs_threshold` shares stages
nothing (in particular no combination is attempted for it). -/
theorem claim1_threshold_gating (E : Env) (db : Db) :
    (∀ txh idx bsig,
        BatchItem.insertOutcome txh idx (some (OutputOutcome.Coins bsig)) ∈
          finalize_signatures E db →
        (sharesFor db (txh, idx)).length > tbsThreshold E) ∧
    (∀ q, (sharesFor db q).length ≤ tbsThreshold E → finalizeGroup E db q = []) := by
  constructor
  · intro txh idx bsig hmem
    obtain ⟨q, hq, hit⟩ := List.mem_flatMap.1 hmem
    obtain ⟨qa, qb⟩ := q
    obtain ⟨b2, hgt, hcomb, hc⟩ := mem_finalizeGroup_cases E db (qa, qb) _ hit
    rcases hc with hA | hB | hC
    · obtain ⟨i, s, -, heq⟩ := (mem_ciDeletesFor db qa _).1 hA
      exact absurd heq (by simp)
    · obtain ⟨pr, -, heq⟩ := hB
      exact absurd heq (by simp)
    · simp only [BatchItem.insertOutcome.injEq, Option.some.injEq,
        OutputOutcome.Coins.injEq] at hC
      obtain ⟨h1, h2, -⟩ := hC
      subst h1
      subst h2
      exact hgt
  · intro q hle
    unfold finalizeGroup
    rw [if_neg (Nat.not_lt.mpr hle)]

/-- Witness for C1: with threshold 2 and 3 shares the outcome is written and
3 > 2; a request id with no shares stages nothing. -/
theorem claim1_witness :
    (sharesFor db0 (5, 0)).length > tbsThreshold EOk ∧
    finalizeGroup EOk db0 (9, 9) = [] :=
  ⟨(claim1_threshold_gating EOk db0).1 5 0 99 (by decide),
   (claim1_threshold_gating EOk db0).2 (9, 9) (by decide)⟩

/-- C7: when `mint.combine` fails for a share group, nothing is staged for
that request id anywhere in the finalize batch: the group itself stages
nothing, and no other group deletes its `PartialSignature` rows or writes
its outcome, so the rows remain for a later attempt. -/
theorem claim7_combine_error_no_staging (E : Env) (db : Db) (q : Nat × Nat) (msg : Nat)
    (h : (E.mintCombine (sharesFor db q)).1 = Except.error msg) :
    finalizeGroup E db q = [] ∧
    (∀ peer, BatchItem.deletePsig q.1 q.2 peer ∉ finalize_signatures E db) ∧
    (∀ b, BatchItem.insertOutcome q.1 q.2 (some (OutputOutcome.Coins b)) ∉
      finalize_signatures E db) := by
  obtain ⟨qa, qb⟩ := q
  refine ⟨?_, ?_, ?_⟩
  · unfold finalizeGroup
    by_cases hgt : (sharesFor db (qa, qb)).length > tbsThreshold E
    · rw [if_pos hgt, h]
    · rw [if_neg hgt]
  · intro peer hmem
    obtain ⟨q2, hq2, hit⟩ := List.mem_flatMap.1 hmem
    obtain ⟨qa2, qb2⟩ := q2
    obtain ⟨b2, hgt, hcomb, hc⟩ := mem_finalizeGroup_cases E db (qa2, qb2) _ hit
    rcases hc with hA | hB | hC
    · obtain ⟨i, s, -, heq⟩ := (mem_ciDeletesFor db qa2 _).1 hA
      exact absurd heq (by simp)
    · obtain ⟨pr, -, heq⟩ := hB
      simp only [BatchItem.deletePsig.injEq] at heq
      obtain ⟨h1, h2, -⟩ := heq
      subst h1
      subst h2
      rw [h] at hcomb
      simp at hcomb
    · exact absurd hC (by simp)
  · intro b hmem
    obtain ⟨q2, hq2, hit⟩ := List.mem_flatMap.1 hmem
    obtain ⟨qa2, qb2⟩ := q2
    obtain ⟨b2, hgt, hcomb, hc⟩ := mem_finalizeGroup_cases E db (qa2, qb2) _ hit
    rcases hc with hA | hB | hC
    · obtain ⟨i, s, -, heq⟩ := (mem_ciDeletesFor db qa2 _).1 hA
      exact absurd heq (by simp)
    · obtain ⟨pr, -, heq⟩ := hB
      exact absurd heq (by simp)
    · simp only [BatchItem.insertOutcome.injEq, Option.some.injEq,
        OutputOutcome.Coins.injEq] at hC
      obtain ⟨h1, h2, -⟩ := hC
      subst h1
      subst h2
      rw [h] at hcomb
      simp at hcomb

/-- Witness for C7 at a concrete failing combination over three shares. -/
theorem claim7_witness :
    finalizeGroup ECombErr db0 (5, 0) = [] ∧
    BatchItem.deletePsig 5 0 0 ∉ finalize_signatures ECombErr db0 ∧
    BatchItem.insertOutcome 5 0 (some (OutputOutcome.Coins 99)) ∉
      finalize_signatures ECombErr db0 := by
  have hth := claim7_combine_error_no_staging ECombErr db0 (5, 0) 3 rfl
  exact ⟨hth.1, hth.2.1 0, hth.2.2 99⟩

/-- Applying one non-share-insert item never adds `PartialSignature` rows. -/
theorem applyItem_psig_keep (db db2 : Db) (it : BatchItem) (hni : isPsigInsert it = false)
    (h : applyItem db it = some db2) : ∀ r, r ∈ db2.psigRows → r ∈ db.psigRows := by
  intro r hr
  cases it with
  | insertCI ci =>
    simp only [applyItem] at h
    injection h with h
    subst h
    by_cases hm : ci ∈ db.ciQueue
    · rw [if_pos hm] at hr; exact hr
    · rw [if_neg hm] at hr; exact hr
  | insertNewCI ci =>
    simp only [applyItem] at h
    split at h
    · simp at h
    · injection h with h; subst h; exact hr
  | deleteCI ci =>
    simp only [applyItem] at h
    injection h with h; subst h; exact hr
  | maybeDeleteCI ci =>
    simp only [applyItem] at h
    injection h with h; subst h; exact hr
  | insertStatus a b =>
    simp only [applyItem] at h
    injection h with h; subst h; exact hr
  | insertOutcome a b c =>
    simp only [applyItem] at h
    injection h with h; subst h; exact hr
  | insertNewPsig a b c d => simp [isPsigInsert] at hni
  | deletePsig a b c =>
    simp only [applyItem] at h
    injection h with h; subst h
    exact (List.mem_filter.1 hr).1
  | queuePegout a b c =>
    simp only [applyItem] at h
    injection h with h; subst h; exact hr
  | mintWrite w =>
    simp only [applyItem] at h
    injection h with h; subst h; exact hr
  | walletWrite w =>
    simp only [applyItem] at h
    injection h with h; subst h; exact hr

/-- Applying one non-queue-insert item never adds pending-queue entries. -/
theorem applyItem_ci_keep (db db2 : Db) (it : BatchItem) (hni : isCIInsert it = false)
    (h : applyItem db it = some db2) : ∀ ci, ci ∈ db2.ciQueue → ci ∈ db.ciQueue := by
  intro x hx
  cases it with
  | insertCI ci => simp [isCIInsert] at hni
  | insertNewCI ci => simp [isCIInsert] at hni
  | deleteCI ci =>
    simp only [applyItem] at h
    injection h with h; subst h
    exact (List.mem_filter.1 hx).1
  | maybeDeleteCI ci =>
    simp only [applyItem] at h
    injection h with h; subst h
    exact (List.mem_filter.1 hx).1
  | insertStatus a b =>
    simp only [applyItem] at h
    injection h with h; subst h; exact hx
  | insertOutcome a b c =>
    simp only [applyItem] at h
    injection h with h; subst h; exact hx
  | insertNewPsig a b c d =>
    simp only [applyItem] at h
    split at h
    · simp at h
    · injection h with h; subst h; exact hx
  | deletePsig a b c =>
    simp only [applyItem] at h
    injection h with h; subst h; exact hx
  | queuePegout a b c =>
    simp only [applyItem] at h
    injection h with h; subst h; exact hx
  | mintWrite w =>
    simp only [applyItem] at h
    injection h with h; subst h; exact hx
  | walletWrite w =>
    simp only [applyItem] at h
    injection h with h; subst h; exact hx

/-- Applying a `deletePsig` leaves no row with the deleted key. -/
theorem applyItem_deletePsig_kills (db db2 : Db) (a b c : Nat)
    (h : applyItem db (BatchItem.deletePsig a b c) = some db2) :
    ∀ r, r ∈ db2.psigRows → ¬(r.txh = a ∧ r.idx = b ∧ r.peer = c) := by
  simp only [applyItem] at h
  injection h with h
  subst h
  intro r hr hkey
  have h2 := (List.mem_filter.1 hr).2
  rw [decide_eq_true_eq] at h2
  exact h2 hkey

/-- Applying a `deleteCI` removes the item from the pending queue. -/
theorem applyItem_deleteCI_kills (db db2 : Db) (ci : ConsensusItem)
    (h : applyItem db (BatchItem.deleteCI ci) = some db2) : ci ∉ db2.ciQueue := by
  simp only [applyItem] at h
  injection h with h
  subst h
  intro hmem
  have h2 := (List.mem_filter.1 hmem).2
  simp [decide_eq_true_eq] at h2

/-- A batch without share inserts never adds `PartialSignature` rows. -/
theorem applyBatch_psig_subset : ∀ (items : List BatchItem) (db db2 : Db),
    (∀ it ∈ items, isPsigInsert it = false) → applyBatch db items = some db2 →
    ∀ r, r ∈ db2.psigRows → r ∈ db.psigRows := by
  intro items
  induction items with
  | nil =>
    intro db db2 _ h r hr
    simp only [applyBatch] at h
    injection h with h
    subst h
    exact hr
  | cons it rest ih =>
    intro db db2 hno h r hr
    simp only [applyBatch] at h
    split at h
    next heq => simp at h
    next dbm heq =>
      exact applyItem_psig_keep db dbm it (hno it (List.mem_cons_self _ _)) heq r
        (ih dbm db2 (fun x hx => hno x (List.mem_cons_of_mem _ hx)) h r hr)

/-- A batch without queue inserts never adds pending-queue entries. -/
theorem applyBatch_ci_subset : ∀ (items : List BatchItem) (db db2 : Db),
    (∀ it ∈ items, isCIInsert it = false) → applyBatch db items = some db2 →
    ∀ ci, ci ∈ db2.ciQueue → ci ∈ db.ciQueue := by
  intro items
  induction items with
  | nil =>
    intro db db2 _ h ci hci
    simp only [applyBatch] at h
    injection h with h
    subst h
    exact hci
  | cons it rest ih =>
    intro db db2 hno h ci hci
    simp only [applyBatch] at h
    split at h
    next heq => simp at h
    next dbm heq =>
      exact applyItem_ci_keep db dbm it (hno it (List.mem_cons_self _ _)) heq ci
        (ih dbm db2 (fun x hx => hno x (List.mem_cons_of_mem _ hx)) h ci hci)

/-- In a batch without share inserts, a staged `deletePsig` guarantees the
key is absent from the resulting state. -/
theorem applyBatch_psig_removed : ∀ (items : List BatchItem) (db db2 : Db) (a b c : Nat),
    (∀ it ∈ items, isPsigInsert it = false) →
    BatchItem.deletePsig a b c ∈ items →
    applyBatch db items = some db2 →
    ∀ r, r ∈ db2.psigRows → ¬(r.txh = a ∧ r.idx = b ∧ r.peer = c) := by
  intro items
  induction items with
  | nil =>
    intro db db2 a b c _ hdel
    simp at hdel
  | cons it rest ih =>
    intro db db2 a b c hno hdel h r hr hkey
    simp only [applyBatch] at h
    split at h
    next heq => simp at h
    next dbm heq =>
      rcases List.mem_cons.1 hdel with hd | hd
      · subst hd
        have hsub := applyBatch_psig_subset rest dbm db2
          (fun x hx => hno x (List.mem_cons_of_mem _ hx)) h
        exact applyItem_deletePsig_kills db dbm a b c heq r (hsub r hr) hkey
      · exact ih dbm db2 a b c (fun x hx => hno x (List.mem_cons_of_mem _ hx)) hd h r hr hkey

/-- In a batch without queue inserts, a staged `deleteCI` guarantees the item
is absent from the resulting queue. -/
theorem applyBatch_ci_removed : ∀ (items : List BatchItem) (db db2 : Db) (ci : ConsensusItem),
    (∀ it ∈ items, isCIInsert it = false) →
    BatchItem.deleteCI ci ∈ items →
    applyBatch db items = some db2 →
    ci ∉ db2.ciQueue := by
  intro items
  induction items with
  | nil =>
    intro db db2 ci _ hdel
    simp at hdel
  | cons it rest ih =>
    intro db db2 ci hno hdel h hci
    simp only [applyBatch] at h
    split at h
    next heq => simp at h
    next dbm heq =>
      rcases List.mem_cons.1 hdel with hd | hd
      · subst hd
        have hsub := applyBatch_ci_subset rest dbm db2
          (fun x hx => hno x (List.mem_cons_of_mem _ hx)) h
        exact applyItem_deleteCI_kills db dbm ci heq (hsub ci hci)
      · exact ih dbm db2 ci (fun x hx => hno x (List.mem_cons_of_mem _ hx)) hd h hci

/-- The finalize batch stages no inserts into the share namespace or the
pending queue: only deletions and outcome writes. -/
theorem finalize_no_inserts (E : Env) (db : Db) :
    ∀ it ∈ finalize_signatures E db, isPsigInsert it = false ∧ isCIInsert it = false := by
  intro it hit
  obtain ⟨q, -, hg⟩ := List.mem_flatMap.1 hit
  obtain ⟨b, -, -, hc⟩ := mem_finalizeGroup_cases E db q it hg
  rcases hc with hA | hB | hC
  · obtain ⟨i, s, -, rfl⟩ := (mem_ciDeletesFor db q.1 it).1 hA
    exact ⟨rfl, rfl⟩
  · obtain ⟨pr, -, rfl⟩ := hB
    exact ⟨rfl, rfl⟩
  · subst hC
    exact ⟨rfl, rfl⟩

/-- C4: after the batch staged by `finalize_signatures` commits, a request id
whose `Coins{sig}` outcome was written has no remaining `PartialSignature`
rows and no remaining `ConsensusItem::PartiallySignedRequest` rows of its
`tx_hash`; and phase-5 ingestion preserves this by dropping shares whose
outcome is already `Coins`. -/
theorem claim4_coins_outcome_cleanup (E : Env) (db db2 : Db) (txh idx bsig : Nat)
    (hmem : BatchItem.insertOutcome txh idx (some (OutputOutcome.Coins bsig)) ∈
      finalize_signatures E db)
    (happ : applyBatch db (finalize_signatures E db) = some db2) :
    sharesFor db2 (txh, idx) = [] ∧
    (∀ i s, ConsensusItem.PartiallySignedRequest txh i s ∉ db2.ciQueue) ∧
    (∀ dbx peer ps s,
      alookup dbx.outputOutcome (txh, idx) = some (some (OutputOutcome.Coins s)) →
      processPSigShare dbx peer (txh, idx) ps = []) := by
  obtain ⟨q, hq, hit⟩ := List.mem_flatMap.1 hmem
  obtain ⟨qa, qb⟩ := q
  obtain ⟨b2, hgt, hcomb, hc⟩ := mem_finalizeGroup_cases E db (qa, qb) _ hit
  have hqeq : qa = txh ∧ qb = idx := by
    rcases hc with hA | hB | hC
    · obtain ⟨i, s, -, heq⟩ := (mem_ciDeletesFor db qa _).1 hA
      exact absurd heq (by simp)
    · obtain ⟨pr, -, heq⟩ := hB
      exact absurd heq (by simp)
    · simp only [BatchItem.insertOutcome.injEq, Option.some.injEq,
        OutputOutcome.Coins.injEq] at hC
      exact ⟨hC.1.symm, hC.2.1.symm⟩
  obtain ⟨h1, h2⟩ := hqeq
  subst h1
  subst h2
  have hnoP : ∀ it ∈ finalize_signatures E db, isPsigInsert it = false :=
    fun it h => (finalize_no_inserts E db it h).1
  have hnoC : ∀ it ∈ finalize_signatures E db, isCIInsert it = false :=
    fun it h => (finalize_no_inserts E db it h).2
  have hitems := finalizeGroup_ok_items E db (qa, qb) b2 hgt hcomb
  refine ⟨?_, ?_, ?_⟩
  · rw [List.eq_nil_iff_forall_not_mem]
    intro x hx
    obtain ⟨r, hr2, hk1, hk2, -⟩ := (mem_sharesFor db2 (qa, qb) x).1 hx
    have hr1 : r ∈ db.psigRows := applyBatch_psig_subset _ db db2 hnoP happ r hr2
    have hdel : BatchItem.deletePsig qa qb r.peer ∈ finalize_signatures E db := by
      refine List.mem_flatMap.2 ⟨(qa, qb), hq, ?_⟩
      rw [hitems]
      refine List.mem_append_left _ (List.mem_append_right _ ?_)
      exact List.mem_map.2 ⟨(r.peer, r.sig),
        (mem_sharesFor db (qa, qb) _).2 ⟨r, hr1, hk1, hk2, rfl⟩, rfl⟩
    exact applyBatch_psig_removed _ db db2 qa qb r.peer hnoP hdel happ r hr2 ⟨hk1, hk2, rfl⟩
  · intro i s hin
    have hin1 : ConsensusItem.PartiallySignedRequest qa i s ∈ db.ciQueue :=
      applyBatch_ci_subset _ db db2 hnoC happ _ hin
    have hdel : BatchItem.deleteCI (ConsensusItem.PartiallySignedRequest qa i s) ∈
        finalize_signatures E db := by
      refine List.mem_flatMap.2 ⟨(qa, qb), hq, ?_⟩
      rw [hitems]
      refine List.mem_append_left _ (List.mem_append_left _ ?_)
      exact (mem_ciDeletesFor db qa _).2 ⟨i, s, hin1, rfl⟩
    exact applyBatch_ci_removed _ db db2 _ hnoC hdel happ hin
  · intro dbx peer ps s hoc
    unfold processPSigShare
    rw [hoc]

/-- Witness for C4 at a concrete finalized issuance: after applying the
finalize batch, the shares and the pending request item are gone, and a late
share for the finalized request is dropped. -/
theorem claim4_witness :
    sharesFor db0fin (5, 0) = [] ∧
    ConsensusItem.PartiallySignedRequest 5 0 10 ∉ db0fin.ciQueue ∧
    processPSigShare db0fin 3 (5, 0) 77 = [] := by
  have hth := claim4_coins_outcome_cleanup EOk db0 db0fin 5 0 99 (by decide) (by decide)
  exact ⟨hth.1, hth.2.1 0 10, hth.2.2 db0fin 3 77 99 (by decide)⟩

/-- The function `toLE` produces exactly `k` bytes. -/
theorem toLE_length : ∀ (k n : Nat), (toLE k n).length = k := by
  intro k
  induction k with
  | zero => intro n; rfl
  | succ k ih => intro n; simp [toLE, ih]

/-- Little-endian round trip for values fitting in `k` bytes. -/
theorem fromLE_toLE : ∀ (k n : Nat), n < 256 ^ k → fromLE (toLE k n) = n := by
  intro k
  induction k with
  | zero =>
    intro n h
    simp only [pow_zero, Nat.lt_one_iff] at h
    subst h
    rfl
  | succ k ih =>
    intro n h
    have hp : (256 : Nat) ^ (k + 1) = 256 * 256 ^ k := by rw [pow_succ]; ring
    have hdiv : n / 256 < 256 ^ k := Nat.div_lt_of_lt_mul (by rw [← hp]; exact h)
    simp only [toLE, fromLE]
    rw [ih (n / 256) hdiv]
    exact Nat.mod_add_div n 256

/-- Taking a prefix of known length from an append. -/
theorem take_append_len {α : Type} (l l2 : List α) (k : Nat) (h : l.length = k) :
    (l ++ l2).take k = l := by
  subst h
  exact List.take_left l l2

/-- Dropping a prefix of known length from an append. -/
theorem drop_append_len {α : Type} (l l2 : List α) (k : Nat) (h : l.length = k) :
    (l ++ l2).drop k = l2 := by
  subst h
  exact List.drop_left l l2

/-- Reading back the `k` little-endian bytes just written. -/
theorem takeLE_toLE (k n : Nat) (r : List Nat) :
    takeLE k (toLE k n ++ r) = some (fromLE (toLE k n), r) := by
  unfold takeLE
  rw [if_pos (show k ≤ (toLE k n ++ r).length by
        rw [List.length_append, toLE_length]; exact Nat.le_add_right _ _)]
  rw [take_append_len _ _ _ (toLE_length k n), drop_append_len _ _ _ (toLE_length k n)]

/-- CompactSize varint round trip (for sizes below 2^64, the Rust `usize`
range). -/
theorem decodeVarint_encodeVarint (n : Nat) (r : List Nat) (h : n < 2 ^ 64) :
    decodeVarint (encodeVarint n ++ r) = some (n, r) := by
  unfold encodeVarint
  by_cases h1 : n < 253
  · rw [if_pos h1]
    simp only [List.cons_append, List.nil_append]
    show decodeVarint (n :: r) = some (n, r)
    simp only [decodeVarint]
    rw [if_pos h1]
  · rw [if_neg h1]
    by_cases h2 : n < 65536
    · rw [if_pos h2]
      simp only [List.cons_append]
      show decodeVarint (253 :: (toLE 2 n ++ r)) = some (n, r)
      simp only [decodeVarint]
      rw [if_pos trivial, takeLE_toLE,
        fromLE_toLE 2 n (lt_of_lt_of_le h2 (by norm_num))]
      norm_num
    · rw [if_neg h2]
      by_cases h3 : n < 4294967296
      · rw [if_pos h3]
        simp only [List.cons_append]
        show decodeVarint (254 :: (toLE 4 n ++ r)) = some (n, r)
        simp only [decodeVarint]
        rw [if_pos trivial, takeLE_toLE,
          fromLE_toLE 4 n (lt_of_lt_of_le h3 (by norm_num))]
        norm_num
      · rw [if_neg h3]
        simp only [List.cons_append]
        show decodeVarint (255 :: (toLE 8 n ++ r)) = some (n, r)
        simp only [decodeVarint]
        rw [takeLE_toLE,
          fromLE_toLE 8 n (lt_of_lt_of_le h (by norm_num))]
        norm_num

/-- Parsing the rendered string of an address recovers the address. -/
theorem parseAddress_addrBytes (a : BtcAddress) : parseAddress (addrBytes a) = some a := by
  obtain ⟨net, p⟩ := a
  cases net <;> rfl

/-- Reduction of `decodeAddress` once the varint step is known. -/
theorem decodeAddress_eq (bs : List Nat) (n : Nat) (rest : List Nat)
    (h : decodeVarint bs = some (n, rest)) :
    decodeAddress bs =
      if n ≤ rest.length then
        match parseAddress (rest.take n) with
        | none => none
        | some a => some (a, rest.drop n)
      else none := by
  unfold decodeAddress
  rw [h]

/-- C9: the canonical encoding of an address is exactly the length-prefixed
UTF-8 bytes of its canonical string form, and decoding the encoding (with any
trailing input) returns the original address, the network being recovered
from the string. -/
theorem claim9_address_encoding (a : BtcAddress) (r : List Nat)
    (h : (addrBytes a).length < 2 ^ 64) :
    encodeAddress a = encodeVarint (addrBytes a).length ++ addrBytes a ∧
    decodeAddress (encodeAddress a ++ r) = some (a, r) := by
  refine ⟨rfl, ?_⟩
  have hdv : decodeVarint (encodeAddress a ++ r) =
      some ((addrBytes a).length, addrBytes a ++ r) := by
    unfold encodeAddress
    rw [List.append_assoc]
    exact decodeVarint_encodeVarint _ _ h
  rw [decodeAddress_eq _ _ _ hdv]
  rw [if_pos (by rw [List.length_append]; exact Nat.le_add_right _ _)]
  rw [take_append_len _ _ _ rfl, drop_append_len _ _ _ rfl, parseAddress_addrBytes]

/-- Witness for C9 at a concrete mainnet address. -/
theorem claim9_witness :
    encodeAddress addr0 = encodeVarint (addrBytes addr0).length ++ addrBytes addr0 ∧
    decodeAddress (encodeAddress addr0 ++ []) = some (addr0, []) :=
  claim9_address_encoding addr0 [] (by decide)

end Minimint
